import Mathlib

/-!
Shallow embedding of the Autocompleter repository (src/autocompleter.py) in Lean 4.

The program builds an n-gram language model (orders 1..3) with nltk and answers
next-word / sentence-completion queries.  The parts of nltk the source delegates
to are embedded by their documented, deterministic semantics:

* nltk.ngrams(sentence, n, True, True, l, r) pads the sentence with n-1 copies
  of l on the left and n-1 copies of r on the right and yields all windows of
  width n (nltk.util.ngrams with pad_both flags).
* nltk.lm.counter.NgramCounter stores, for each order m bigger than 1, a
  conditional frequency distribution context -> (word -> count); order-1 grams
  go into a plain frequency distribution called unigrams.  Indexing the counter
  with a tuple t returns the distribution of order (length t + 1) at context t;
  indexing with a single word returns its unigram count.  Unseen contexts give
  an empty distribution (defaultdict semantics).
* A frequency distribution is a Python Counter: a dictionary in key insertion
  order.  most_common(n) returns the n highest-count items, sorted by count
  descending, ties kept in insertion order (CPython sorted / heapq.nlargest
  are stable).  It is embedded as a stable insertion sort on the association
  list, which produces the same list as any stable descending sort.

Frequency distributions are association lists in key insertion order, which is
exactly the observable state of a Python dict/Counter.
-/

/-- Tokens are plain strings (already normalized by the external pipeline). -/
abbrev Token := String

/-- RIGHT_SENT_PAD = "&lt;/s&gt;" sentinel (source line 16). -/
def RIGHT_SENT_PAD : Token := "</s>"

/-- LEFT_SENT_PAD = "&lt;s&gt;" sentinel (source line 17). -/
def LEFT_SENT_PAD : Token := "<s>"

/-- A Python Counter over tokens: association list in key insertion order. -/
abbrev FreqDist := List (Token × Nat)

/-- Counter increment: bump an existing key in place, or append a fresh key
with count 1 at the end (Python dict insertion-order semantics). -/
def FreqDist.incr : FreqDist → Token → FreqDist
  | [], w => [(w, 1)]
  | (k, c) :: rest, w =>
    if k = w then (k, c + 1) :: rest else (k, c) :: FreqDist.incr rest w

/-- Counter lookup: 0 for a missing key. -/
def FreqDist.get : FreqDist → Token → Nat
  | [], _ => 0
  | (k, c) :: rest, w => if k = w then c else FreqDist.get rest w

/-- FreqDist.N(): the total of all counts. -/
def FreqDist.N (d : FreqDist) : Nat := (d.map Prod.snd).sum

/-- Descending-by-count order used by most_common: a comes before b when the
count of a is at least the count of b. -/
def countGE (a b : Token × Nat) : Prop := b.2 ≤ a.2

instance instDecCountGE : DecidableRel countGE := fun a b => Nat.decLe b.2 a.2

instance instTotalCountGE : IsTotal (Token × Nat) countGE :=
  ⟨fun a b => (Nat.le_total b.2 a.2).elim Or.inl Or.inr⟩

instance instTransCountGE : IsTrans (Token × Nat) countGE :=
  ⟨fun _ _ _ h1 h2 => Nat.le_trans h2 h1⟩

/-- Counter.most_common(n): the n highest-count items, count descending,
insertion order among equal counts (stable sort, then take n). -/
def FreqDist.most_common (d : FreqDist) (n : Nat) : List (Token × Nat) :=
  (List.insertionSort countGE d).take n

/-- A conditional frequency distribution: context -> FreqDist, again an
association list in insertion order. -/
abbrev CFD := List (List Token × FreqDist)

/-- ConditionalFreqDist lookup; an unseen context gives the empty
distribution (defaultdict semantics). -/
def CFD.get : CFD → List Token → FreqDist
  | [], _ => []
  | (k, d) :: rest, ctx => if k = ctx then d else CFD.get rest ctx

/-- ConditionalFreqDist increment at (context, word). -/
def CFD.incr : CFD → List Token → Token → CFD
  | [], ctx, w => [(ctx, FreqDist.incr [] w)]
  | (k, d) :: rest, ctx, w =>
    if k = ctx then (k, FreqDist.incr d w) :: rest
    else (k, d) :: CFD.incr rest ctx w

/-- nltk.lm.counter.NgramCounter restricted to the orders the program feeds it
(1, 2 and 3): the order-1 FreqDist called unigrams plus one conditional
distribution per higher order. -/
structure NgramCounter where
  unigrams : FreqDist
  bigrams : CFD
  trigrams : CFD

/-- NgramCounter.update on a single ngram: order 1 goes to unigrams, an ngram
of order m at least 2 increments counts[m][ngram[:-1]][ngram[-1]]. -/
def NgramCounter.update (c : NgramCounter) (g : List Token) : NgramCounter :=
  match g with
  | [w] => { c with unigrams := c.unigrams.incr w }
  | [a, w] => { c with bigrams := c.bigrams.incr [a] w }
  | [a, b, w] => { c with trigrams := c.trigrams.incr [a, b] w }
  | _ => c

/-- NgramCounter indexing with a context tuple t: the distribution of order
(length t + 1) at t.  The program only ever queries with 1- or 2-token
contexts; any other order is an untouched defaultdict, hence empty. -/
def NgramCounter.getSeq (c : NgramCounter) (ctx : List Token) : FreqDist :=
  match ctx with
  | [a] => c.bigrams.get [a]
  | [a, b] => c.trigrams.get [a, b]
  | _ => []

/-- All width-n windows of a list (the ngram stream of nltk.util.ngrams,
without padding). -/
def windows (n : Nat) : List Token → List (List Token)
  | [] => []
  | x :: t => if n ≤ (x :: t).length then (x :: t).take n :: windows n t else []

/-- nltk.ngrams(sentence, n, True, True, LEFT_SENT_PAD, RIGHT_SENT_PAD):
pad with n-1 left sentinels and n-1 right sentinels, then all width-n
windows (source lines 92-94). -/
def ngrams (s : List Token) (n : Nat) : List (List Token) :=
  windows n
    (List.replicate (n - 1) LEFT_SENT_PAD ++ s ++ List.replicate (n - 1) RIGHT_SENT_PAD)

/-- Model construction of Autocompleter.fit, source lines 92-95: build the
trigram, bigram and unigram streams of every sentence and feed the
concatenation trigrams + bigrams + unigrams to an NgramCounter. -/
def fitCounter (sentences : List (List Token)) : NgramCounter :=
  ((sentences.map (fun s => ngrams s 3)) ++ (sentences.map (fun s => ngrams s 2))
      ++ (sentences.map (fun s => ngrams s 1))).foldl
    (fun c gs => gs.foldl NgramCounter.update c) ⟨[], [], []⟩

/-- The Autocompleter object: ngram_counter is None until fit runs. -/
structure Autocompleter where
  ngram_counter : Option NgramCounter

/-- Python list slice xs[-2:]: the last two elements (fewer when shorter). -/
def lastTwo (l : List Token) : List Token := l.drop (l.length - 2)

/-- Python str.startswith: the second string is a character-wise head of the
first one (the empty string starts every string). -/
def startswith (w start : String) : Bool := start.data.isPrefixOf w.data

/-- Autocompleter.get_next_word (source lines 199-233): empty on an untrained
model or an empty token list; otherwise look the last two tokens up in the
counter (an order equal to context length + 1), rank by most_common capped at
the total unigram count, keep the words starting with start_string, and take
the first top_n. -/
def get_next_word (a : Autocompleter) (ts : List Token) (top_n : Nat)
    (start_string : String) : List Token :=
  match a.ngram_counter with
  | none => []
  | some c =>
    if ts.length < 1 then []
    else
      ((((c.getSeq (lastTwo ts)).most_common c.unigrams.N).filter
          (fun p => startswith p.1 start_string)).map Prod.fst).take top_n

/-- The growth loop of Autocompleter.get_sentence (source lines 191-196):
up to k iterations, stop on no candidate or on the END sentinel (which is
not appended), otherwise append the candidate. -/
def growLoop (a : Autocompleter) : Nat → List Token → List Token
  | 0, s => s
  | k + 1, s =>
    match get_next_word a s 1 "" with
    | [] => s
    | w :: _ => if w = RIGHT_SENT_PAD then s else growLoop a k (s ++ [w])

/-- Autocompleter.get_sentence (source lines 160-197): empty on an untrained
model; a token list already empty or at/over the cap is returned unchanged;
otherwise grow for max_sentence_length - length iterations. -/
def get_sentence (a : Autocompleter) (ts : List Token)
    (max_sentence_length : Nat) : List Token :=
  match a.ngram_counter with
  | none => []
  | some _ =>
    if max_sentence_length ≤ ts.length ∨ ts.length = 0 then ts
    else growLoop a (max_sentence_length - ts.length) ts

/-- Autocompleter.in_vocabulary (source lines 154-158): the unigram count of
the word is strictly above the threshold; false on an untrained model. -/
def in_vocabulary (a : Autocompleter) (w : Token) (count_threshold : Nat) : Bool :=
  match a.ngram_counter with
  | none => false
  | some c => count_threshold < c.unigrams.get w

/-- The external text utilities generate_completions delegates to
(util.py and nltk tokenizers), passed in as opaque functions. -/
structure TextPipeline where
  format_and_clean : String → String
  spell_correction : String → String
  encode_entities : String → String
  word_tokenize : String → List Token
  detokenize : List Token → String
  get_true_case : String → String

/-- Autocompleter.generate_completions (source lines 100-152): empty on an
untrained model; normalize and tokenize the text; empty when no tokens; if the
last token is not in vocabulary (threshold 50) strip it and use it as the
start constraint; seed one sentence per predicted word and detokenize. -/
def generate_completions (p : TextPipeline) (a : Autocompleter) (s : String)
    (max_sentence_length : Nat) (max_num_of_sentences : Nat) : List String :=
  match a.ngram_counter with
  | none => []
  | some _ =>
    let toks := p.word_tokenize (p.encode_entities (p.spell_correction (p.format_and_clean s)))
    if toks.length = 0 then []
    else
      let lastWord := toks.getLastD ""
      let known := in_vocabulary a lastWord 50
      let start_string := if known then "" else lastWord
      let kept := if known then toks else toks.dropLast
      (get_next_word a kept max_num_of_sentences start_string).map
        (fun w => p.get_true_case (p.detokenize (get_sentence a (kept ++ [w]) max_sentence_length)))

/-- The failures Autocompleter.fit can surface (FileNotFoundError from
open/json.load, malformed input from the decode or preprocessing steps). -/
inductive FitError where
  | fileNotFound
  | invalidInput
deriving DecidableEq

/-- Autocompleter.fit as a state transformer (source lines 41-98).  The call
json.load(open(json_filename)) is the first statement of the body and the
only write to self.ngram_counter is the final statement, so an error raised
while reading or preprocessing propagates to the caller before any state
change: the pair returned is (new state, surfaced error).  readJson stands
for the fallible file read + JSON decode, preprocess for the total external
text pipeline of steps 2-6. -/
def fitRun {R : Type} (readJson : Except FitError R)
    (preprocess : R → List (List Token)) (a : Autocompleter) :
    Autocompleter × Option FitError :=
  match readJson with
  | Except.error e => (a, some e)
  | Except.ok raw => ({ ngram_counter := some (fitCounter (preprocess raw)) }, none)

/-- count(order, context, word) of spec section 4.1 read off the counter; the
context argument is ignored at order 1, where the stored context is empty. -/
def ngramCount (c : NgramCounter) (n : Nat) (ctx : List Token) (w : Token) : Nat :=
  match n with
  | 1 => c.unigrams.get w
  | 2 => (c.bigrams.get ctx).get w
  | 3 => (c.trigrams.get ctx).get w
  | _ => 0

/-- The padding scheme in the words of the spec (section 4.1 build): n-1 START
sentinels on the left and n-1 END sentinels on the right of the sentence. -/
def specPadded (n : Nat) (s : List Token) : List Token :=
  List.replicate (n - 1) LEFT_SENT_PAD ++ s ++ List.replicate (n - 1) RIGHT_SENT_PAD

/-- The per-order count in the words of the spec: slide a width-n window
across the padded sentence, count the windows equal to context ++ [word],
and sum over all training sentences. -/
def specNgramCount (sentences : List (List Token)) (n : Nat) (ctx : List Token)
    (w : Token) : Nat :=
  (sentences.map (fun s => (windows n (specPadded n s)).count (ctx ++ [w]))).sum

/-! ### A small object store

Python lists are mutable objects passed by reference.  To talk about the
frame effect of the query methods on their list argument, the list argument
is modelled as a reference into a store of list objects: ids below next are
live, list(xs) allocates a fresh id holding a copy, and append writes in
place through the target id. -/

/-- A store of Python list objects: contents per id, next fresh id. -/
structure PyHeap where
  heap : Nat → List Token
  next : Nat

/-- Python list(xs): allocate a fresh object holding the elements of xs and
return the store together with the new reference. -/
def heapCopy (s : PyHeap) (src : Nat) : PyHeap × Nat :=
  (⟨fun i => if i = s.next then s.heap src else s.heap i, s.next + 1⟩, s.next)

/-- Python xs.append(w): in-place write through the reference. -/
def heapAppend (s : PyHeap) (tgt : Nat) (w : Token) : PyHeap :=
  ⟨fun i => if i = tgt then s.heap tgt ++ [w] else s.heap i, s.next⟩

/-- Autocompleter.get_next_word against the store: after the early returns the
argument list is copied (source line 226) and every later operation only
reads, so the result value is that of the pure function on the copy. -/
def get_next_word_heap (a : Autocompleter) (st : PyHeap) (arg : Nat)
    (top_n : Nat) (start_string : String) : PyHeap × List Token :=
  match a.ngram_counter with
  | none => (st, [])
  | some _ =>
    if (st.heap arg).length < 1 then (st, [])
    else
      let r := heapCopy st arg
      (r.1, get_next_word a (r.1.heap r.2) top_n start_string)

/-- The growth loop of get_sentence against the store: the candidate search
runs get_next_word on the sentence object and append writes through the
sentence reference (source lines 191-196). -/
def growLoop_heap (a : Autocompleter) : Nat → PyHeap → Nat → PyHeap
  | 0, st, _ => st
  | k + 1, st, sid =>
    let r := get_next_word_heap a st sid 1 ""
    match r.2 with
    | [] => r.1
    | w :: _ =>
      if w = RIGHT_SENT_PAD then r.1 else growLoop_heap a k (heapAppend r.1 sid w) sid

/-- Autocompleter.get_sentence against the store: the early returns hand the
argument object back untouched; otherwise the argument is copied (source line
186) and the loop grows the copy. -/
def get_sentence_heap (a : Autocompleter) (st : PyHeap) (arg : Nat)
    (max_sentence_length : Nat) : PyHeap × List Token :=
  match a.ngram_counter with
  | none => (st, [])
  | some _ =>
    if max_sentence_length ≤ (st.heap arg).length ∨ (st.heap arg).length = 0 then
      (st, st.heap arg)
    else
      let r := heapCopy st arg
      let st2 := growLoop_heap a (max_sentence_length - (st.heap arg).length) r.1 r.2
      (st2, st2.heap r.2)

/-! ### Concrete fixtures used by witnesses and counterexamples -/

/-- A two-sentence training corpus in the shape of the repository's test
fixture: a shared two-token context followed by a tie between two words. -/
def corpusA : List (List Token) :=
  [[("how"), ("can"), ("i"), ("assist")], [("how"), ("can"), ("i"), ("help")]]

/-- The model fitted on corpusA. -/
def acA : Autocompleter := ⟨some (fitCounter corpusA)⟩

/-- A one-sentence corpus used to probe one-token contexts. -/
def corpusB : List (List Token) := [[("a"), ("b")]]

/-- The model fitted on corpusB. -/
def acB : Autocompleter := ⟨some (fitCounter corpusB)⟩

/-- A corpus holding a single empty sentence: padding still generates
boundary trigrams but no unigrams at all. -/
def corpusE : List (List Token) := [[]]

/-- The model fitted on corpusE. -/
def acE : Autocompleter := ⟨some (fitCounter corpusE)⟩

/-- A store holding one live list object at id 0. -/
def heap0 : PyHeap := ⟨fun j => if j = 0 then [("can"), ("i")] else [], 1⟩

/-! ### General lemmas -/

/-- The growth loop adds at most one word per remaining iteration. -/
theorem growLoop_length_le (a : Autocompleter) :
    ∀ (k : Nat) (s : List Token), (growLoop a k s).length ≤ s.length + k := by
  intro k
  induction k with
  | zero => intro s; simp [growLoop]
  | succ k ih =>
    intro s
    simp only [growLoop]
    cases hnw : get_next_word a s 1 "" with
    | nil =>
      show s.length ≤ s.length + (k + 1)
      omega
    | cons w rest =>
      by_cases hw : w = RIGHT_SENT_PAD
      · simp [hw]
      · simp only [hw, if_false]
        have h := ih (s ++ [w])
        simp only [List.length_append, List.length_singleton] at h
        omega

/-! ### Claim C2 -/

/-- C2 counterexample: on a built model, a 3-token input with cap 2 is
returned unchanged, so get_sentence returns a sequence longer than
maxSentenceLength. -/
theorem get_sentence_cap_counterexample :
    ¬ ((get_sentence acA [("a"), ("b"), ("c")] 2).length ≤ 2) := by decide

/-- C2 (amended): the sequence returned by get_sentence has length at most
the maximum of maxSentenceLength and the input length; in particular it never
grows beyond the cap, but an input already over the cap is returned unchanged. -/
theorem get_sentence_length_le (a : Autocompleter) (ts : List Token) (m : Nat) :
    (get_sentence a ts m).length ≤ max m ts.length := by
  obtain ⟨mc⟩ := a
  cases mc with
  | none => simp [get_sentence]
  | some c =>
    by_cases h : m ≤ ts.length ∨ ts.length = 0
    · have he : get_sentence ⟨some c⟩ ts m = ts := by
        simp only [get_sentence]
        rw [if_pos h]
      rw [he]
      exact Nat.le_max_right m ts.length
    · have he : get_sentence ⟨some c⟩ ts m = growLoop ⟨some c⟩ (m - ts.length) ts := by
        simp only [get_sentence]
        rw [if_neg h]
      rw [he]
      have hg := growLoop_length_le ⟨some c⟩ (m - ts.length) ts
      push_neg at h
      omega

/-! ### Claim C7 -/

/-- C7: get_next_word returns at most top_n words, every returned word starts
with start_string, and on a trained model with a nonempty token list the
number returned is exactly the smaller of top_n and the number of matching
candidates, so fewer than top_n are returned exactly when fewer matches exist. -/
theorem get_next_word_topn_startswith (a : Autocompleter) (ts : List Token)
    (top_n : Nat) (st : String) :
    (get_next_word a ts top_n st).length ≤ top_n ∧
    (∀ w ∈ get_next_word a ts top_n st, startswith w st = true) ∧
    (∀ c, a.ngram_counter = some c → 1 ≤ ts.length →
      (get_next_word a ts top_n st).length =
        min top_n (((c.getSeq (lastTwo ts)).most_common c.unigrams.N).filter
          (fun p => startswith p.1 st)).length) := by
  obtain ⟨mc⟩ := a
  cases mc with
  | none =>
    refine ⟨by simp [get_next_word], by simp [get_next_word], ?_⟩
    intro c hc
    exact absurd hc (by simp)
  | some c0 =>
    by_cases h : ts.length < 1
    · refine ⟨by simp [get_next_word, h], by simp [get_next_word, h], ?_⟩
      intro c hc h1
      omega
    · refine ⟨?_, ?_, ?_⟩
      · simp only [get_next_word, h, if_false]
        simp [List.length_take]
      · intro w hw
        simp only [get_next_word, h, if_false] at hw
        have hw2 := List.mem_of_mem_take hw
        obtain ⟨p, hp, hpw⟩ := List.mem_map.mp hw2
        have := List.mem_filter.mp hp
        rw [← hpw]
        exact this.2
      · intro c hc h1
        have hcc : c0 = c := by
          simpa using hc
        subst hcc
        simp [get_next_word, h, List.length_take]

/-- C7 witness: with the corpusA model, context (can, i), start he and
top_n 1 the returned list is exactly the single matching candidate. -/
theorem get_next_word_topn_startswith_witness :
    (get_next_word acA [("can"), ("i")] 1 ("he")).length = 1 :=
  ((get_next_word_topn_startswith acA [("can"), ("i")] 1 ("he")).2.2
    (fitCounter corpusA) rfl (by decide)).trans (by decide)

/-! ### Claim C8 -/

/-- C8: on an untrained model (ngram_counter = none) each of
generate_completions, get_next_word and get_sentence returns the empty list,
for every input. -/
theorem untrained_queries_empty :
    ∀ (p : TextPipeline) (s : String) (ml mn : Nat) (ts : List Token)
      (n : Nat) (st : String),
      generate_completions p ⟨none⟩ s ml mn = [] ∧
      get_next_word ⟨none⟩ ts n st = [] ∧ get_sentence ⟨none⟩ ts ml = [] :=
  fun _ _ _ _ _ _ _ => ⟨rfl, rfl, rfl⟩

/-! ### Claim C9 -/

/-- C9: when the file read or JSON decode fails, fit surfaces the error to
the caller and the model state is unchanged: in the source the call
json.load(open(json_filename)) precedes the single assignment to
self.ngram_counter, so the raised error leaves ngram_counter as it was. -/
theorem fit_error_state_unchanged {R : Type} (e : FitError)
    (pre : R → List (List Token)) (a : Autocompleter) :
    fitRun (Except.error e) pre a = (a, some e) ∧
    (fitRun (Except.error e) pre a).1.ngram_counter = a.ngram_counter :=
  ⟨rfl, rfl⟩

/-! ### Claim C6 -/

/-- Early exits of the growth loop: the END sentinel is never appended, and a
result shorter than the iteration budget allows was stopped by an empty
candidate list or by an END candidate. -/
theorem growLoop_stop (a : Autocompleter) :
    ∀ (k : Nat) (s : List Token), RIGHT_SENT_PAD ∉ s →
      RIGHT_SENT_PAD ∉ growLoop a k s ∧
      ((growLoop a k s).length < s.length + k →
        get_next_word a (growLoop a k s) 1 "" = [] ∨
        (get_next_word a (growLoop a k s) 1 "").head? = some RIGHT_SENT_PAD) := by
  intro k
  induction k with
  | zero =>
    intro s hs
    refine ⟨hs, ?_⟩
    intro hlen
    simp only [growLoop] at hlen ⊢
    omega
  | succ k ih =>
    intro s hs
    cases hnw : get_next_word a s 1 "" with
    | nil =>
      have he : growLoop a (k + 1) s = s := by
        simp [growLoop, hnw]
      rw [he]
      exact ⟨hs, fun _ => Or.inl hnw⟩
    | cons w rest =>
      by_cases hw : w = RIGHT_SENT_PAD
      · have he : growLoop a (k + 1) s = s := by
          simp [growLoop, hnw, hw]
        rw [he]
        refine ⟨hs, fun _ => Or.inr ?_⟩
        rw [hnw, hw]
        rfl
      · have he : growLoop a (k + 1) s = growLoop a k (s ++ [w]) := by
          simp [growLoop, hnw, hw]
        rw [he]
        have hs2 : RIGHT_SENT_PAD ∉ s ++ [w] := by
          intro hmem
          rcases List.mem_append.mp hmem with h1 | h1
          · exact hs h1
          · exact hw (List.mem_singleton.mp h1).symm
        obtain ⟨ih1, ih2⟩ := ih (s ++ [w]) hs2
        refine ⟨ih1, ?_⟩
        intro hlen
        apply ih2
        rw [List.length_append, List.length_singleton]
        omega

/-- C6: for a sentinel-free input on any model, the END sentinel never occurs
in the sequence get_sentence returns, and a result strictly below the cap was
stopped either because no candidate was found or because the top candidate
was the END sentinel (which was not appended). -/
theorem get_sentence_stop_conditions (a : Autocompleter) (ts : List Token)
    (m : Nat) (_hL : LEFT_SENT_PAD ∉ ts) (hR : RIGHT_SENT_PAD ∉ ts) :
    RIGHT_SENT_PAD ∉ get_sentence a ts m ∧
    (0 < ts.length → ts.length < m → (get_sentence a ts m).length < m →
      get_next_word a (get_sentence a ts m) 1 ("") = [] ∨
      (get_next_word a (get_sentence a ts m) 1 ("")).head? = some RIGHT_SENT_PAD) := by
  obtain ⟨mc⟩ := a
  cases mc with
  | none =>
    refine ⟨by simp [get_sentence], ?_⟩
    intro h1 h2 h3
    left
    rfl
  | some c =>
    by_cases h : m ≤ ts.length ∨ ts.length = 0
    · have he : get_sentence ⟨some c⟩ ts m = ts := by
        simp only [get_sentence]
        rw [if_pos h]
      rw [he]
      refine ⟨hR, ?_⟩
      intro h1 h2 h3
      rcases h with h | h <;> omega
    · have he : get_sentence ⟨some c⟩ ts m = growLoop ⟨some c⟩ (m - ts.length) ts := by
        simp only [get_sentence]
        rw [if_neg h]
      rw [he]
      obtain ⟨g1, g2⟩ := growLoop_stop ⟨some c⟩ (m - ts.length) ts hR
      refine ⟨g1, ?_⟩
      intro h1 h2 h3
      apply g2
      push_neg at h
      omega

/-- C6 witness: on the corpusA model the grown sentence carries no END
sentinel. -/
theorem get_sentence_stop_conditions_witness :
    RIGHT_SENT_PAD ∉ get_sentence acA [("how"), ("can"), ("i")] 9 :=
  (get_sentence_stop_conditions acA [("how"), ("can"), ("i")] 9
    (by decide) (by decide)).1

/-! ### Claim C1 -/

/-- Every word get_next_word returns is a key of the distribution the counter
holds at the queried context. -/
theorem mem_getSeq_of_mem_get_next_word (c : NgramCounter) (ts : List Token)
    (top_n : Nat) (st : String) (h : ¬ ts.length < 1) :
    ∀ w ∈ get_next_word ⟨some c⟩ ts top_n st,
      w ∈ (c.getSeq (lastTwo ts)).map Prod.fst := by
  intro w hw
  simp only [get_next_word] at hw
  rw [if_neg h] at hw
  have hw2 := List.mem_of_mem_take hw
  obtain ⟨p, hp, hpw⟩ := List.mem_map.mp hw2
  have hp2 := (List.mem_filter.mp hp).1
  simp only [FreqDist.most_common] at hp2
  have hp3 := List.mem_of_mem_take hp2
  have hp4 := (List.mem_insertionSort countGE).mp hp3
  rw [← hpw]
  exact List.mem_map_of_mem Prod.fst hp4

/-- A list with at least two elements has a two-element tail slice. -/
theorem lastTwo_pair (ts : List Token) (h : 2 ≤ ts.length) :
    ∃ a b, lastTwo ts = [a, b] := by
  apply List.length_eq_two.mp
  simp only [lastTwo, List.length_drop]
  omega

/-- C1 counterexample: on the model built from the single sentence a b, the
one-token query a is answered (from the bigram distribution), not empty. -/
theorem get_next_word_short_context_counterexample :
    get_next_word acB [("a")] 1 ("") ≠ [] := by decide

/-- C1 (amended): get_next_word draws its candidates from the distribution of
order (context length + 1) at the last at-most-two tokens: exclusively the
trigram distribution for an input of two or more tokens, the bigram
distribution (not an empty result) for a one-token input, and the empty list
only for an empty input. -/
theorem get_next_word_order_source (c : NgramCounter) (ts : List Token)
    (top_n : Nat) (st : String) :
    (2 ≤ ts.length →
      ∀ w ∈ get_next_word ⟨some c⟩ ts top_n st,
        w ∈ (c.trigrams.get (lastTwo ts)).map Prod.fst) ∧
    (ts.length = 1 →
      ∀ w ∈ get_next_word ⟨some c⟩ ts top_n st,
        w ∈ (c.bigrams.get ts).map Prod.fst) ∧
    (ts.length = 0 → get_next_word ⟨some c⟩ ts top_n st = []) := by
  refine ⟨?_, ?_, ?_⟩
  · intro h2 w hw
    have hmem := mem_getSeq_of_mem_get_next_word c ts top_n st (by omega) w hw
    obtain ⟨a, b, hab⟩ := lastTwo_pair ts h2
    rw [hab] at hmem ⊢
    exact hmem
  · intro h1 w hw
    have hmem := mem_getSeq_of_mem_get_next_word c ts top_n st (by omega) w hw
    obtain ⟨a, ha⟩ := List.length_eq_one.mp h1
    subst ha
    exact hmem
  · intro h0
    have ha := List.length_eq_zero.mp h0
    subst ha
    rfl

/-- C1 witness: on the corpusA model a three-token query returns a word of
the trigram distribution at its last two tokens. -/
theorem get_next_word_order_source_witness :
    ("assist") ∈ ((fitCounter corpusA).trigrams.get
      (lastTwo [("how"), ("can"), ("i")])).map Prod.fst :=
  (get_next_word_order_source (fitCounter corpusA) [("how"), ("can"), ("i")]
    2 ("")).1 (by decide) ("assist") (by decide)

/-! ### Claim C5 -/

/-- The empty string starts every string. -/
theorem startswith_empty (w : String) : startswith w ("") = true := by
  simp [startswith]

/-- C5 counterexample: on the model built from one empty training sentence,
the boundary context has a one-entry distribution holding the END sentinel,
yet get_next_word with topN equal to that size (1) returns nothing, because
the cap, the total unigram count, is 0. -/
theorem cap_excludes_candidate_counterexample :
    (RIGHT_SENT_PAD, 1) ∈ (fitCounter corpusE).getSeq
        (lastTwo [LEFT_SENT_PAD, LEFT_SENT_PAD]) ∧
    ((fitCounter corpusE).getSeq (lastTwo [LEFT_SENT_PAD, LEFT_SENT_PAD])).length ≤ 1 ∧
    get_next_word acE [LEFT_SENT_PAD, LEFT_SENT_PAD] 1 ("") = [] := by decide

/-- C5 (amended): the cap never excludes a stored candidate as long as the
size of the context distribution does not exceed the total unigram count
(which holds whenever no training sentence is empty): with topN at least the
distribution size, every stored word of the context is returned.  A corpus
with an empty sentence can break the side condition at a boundary context. -/
theorem cap_returns_all (c : NgramCounter) (ts : List Token) (top_n : Nat)
    (h1 : 1 ≤ ts.length)
    (hcap : (c.getSeq (lastTwo ts)).length ≤ c.unigrams.N)
    (htop : (c.getSeq (lastTwo ts)).length ≤ top_n) :
    ∀ p ∈ c.getSeq (lastTwo ts), p.1 ∈ get_next_word ⟨some c⟩ ts top_n ("") := by
  intro p hp
  have hlt : ¬ ts.length < 1 := by omega
  have e1 : (c.getSeq (lastTwo ts)).most_common c.unigrams.N =
      List.insertionSort countGE (c.getSeq (lastTwo ts)) := by
    simp only [FreqDist.most_common]
    apply List.take_of_length_le
    rw [List.length_insertionSort]
    exact hcap
  have e2 : (List.insertionSort countGE (c.getSeq (lastTwo ts))).filter
      (fun q => startswith q.1 ("")) =
      List.insertionSort countGE (c.getSeq (lastTwo ts)) := by
    apply List.filter_eq_self.mpr
    intro q hq
    exact startswith_empty q.1
  have he : get_next_word ⟨some c⟩ ts top_n ("") =
      ((List.insertionSort countGE (c.getSeq (lastTwo ts))).map Prod.fst).take top_n := by
    simp only [get_next_word]
    rw [if_neg hlt, e1, e2]
  rw [he, List.take_of_length_le]
  · exact List.mem_map_of_mem Prod.fst ((List.mem_insertionSort countGE).mpr hp)
  · rw [List.length_map, List.length_insertionSort]
    exact htop

/-- C5 witness: on the corpusA model at context (can, i) with topN 2, the
stored candidate help is returned. -/
theorem cap_returns_all_witness :
    ("help") ∈ get_next_word ⟨some (fitCounter corpusA)⟩ [("can"), ("i")] 2 ("") :=
  cap_returns_all (fitCounter corpusA) [("can"), ("i")] 2
    (by decide) (by decide) (by decide) (("help"), 1) (by decide)

/-! ### Claim C4 -/

/-- Counter increment bumps exactly the incremented key. -/
theorem fd_get_incr (d : FreqDist) (x w : Token) :
    (d.incr x).get w = d.get w + if x = w then 1 else 0 := by
  induction d with
  | nil =>
    by_cases h : x = w <;> simp [FreqDist.incr, FreqDist.get, h]
  | cons p rest ih =>
    obtain ⟨k, cnt⟩ := p
    by_cases hk : k = x
    · subst hk
      by_cases hw : k = w <;> simp [FreqDist.incr, FreqDist.get, hw]
    · by_cases hw : k = w
      · subst hw
        have hx : ¬ x = k := fun h => hk h.symm
        simp [FreqDist.incr, FreqDist.get, hk, hx]
      · simp [FreqDist.incr, FreqDist.get, hk, hw, ih]

/-- Conditional increment at a context only touches that context. -/
theorem cfd_get_incr (m : CFD) (ctx ctx2 : List Token) (x : Token) :
    (m.incr ctx x).get ctx2 =
      if ctx = ctx2 then (m.get ctx2).incr x else m.get ctx2 := by
  induction m with
  | nil =>
    by_cases h : ctx = ctx2
    · subst h
      simp [CFD.incr, CFD.get]
    · simp [CFD.incr, CFD.get, h]
  | cons p rest ih =>
    obtain ⟨k, d⟩ := p
    by_cases hk : k = ctx
    · subst hk
      by_cases h2 : k = ctx2
      · subst h2
        simp [CFD.incr, CFD.get]
      · have h3 : ¬ k = ctx2 := h2
        simp [CFD.incr, CFD.get, h2, h3]
    · by_cases h2 : k = ctx2
      · subst h2
        have h3 : ¬ ctx = k := fun h => hk h.symm
        simp [CFD.incr, CFD.get, hk, h3]
      · simp [CFD.incr, CFD.get, hk, h2, ih]

/-- One NgramCounter.update changes the unigram count of w exactly when the
ngram is the unigram (w). -/
theorem unigrams_update_get (c : NgramCounter) (g : List Token) (w : Token) :
    (c.update g).unigrams.get w =
      c.unigrams.get w + if g = [w] then 1 else 0 := by
  rcases g with _ | ⟨x, _ | ⟨y, _ | ⟨z, _ | ⟨u, t⟩⟩⟩⟩
  · simp [NgramCounter.update]
  · by_cases h : x = w <;>
      simp [NgramCounter.update, fd_get_incr, h]
  · simp [NgramCounter.update]
  · simp [NgramCounter.update]
  · simp [NgramCounter.update]

/-- One NgramCounter.update changes the bigram count of (context a, word w)
exactly when the ngram is (a, w). -/
theorem bigrams_update_get (c : NgramCounter) (g : List Token) (a w : Token) :
    ((c.update g).bigrams.get [a]).get w =
      (c.bigrams.get [a]).get w + if g = [a, w] then 1 else 0 := by
  rcases g with _ | ⟨x, _ | ⟨y, _ | ⟨z, _ | ⟨u, t⟩⟩⟩⟩
  · simp [NgramCounter.update]
  · simp [NgramCounter.update]
  · by_cases hx : x = a
    · subst hx
      by_cases hy : y = w <;>
        simp [NgramCounter.update, cfd_get_incr, fd_get_incr, hy]
    · have hx2 : ¬ [x] = [a] := by simp [hx]
      simp [NgramCounter.update, cfd_get_incr, hx2, hx]
  · simp [NgramCounter.update]
  · simp [NgramCounter.update]

/-- One NgramCounter.update changes the trigram count of (context (a, b),
word w) exactly when the ngram is (a, b, w). -/
theorem trigrams_update_get (c : NgramCounter) (g : List Token) (a b w : Token) :
    ((c.update g).trigrams.get [a, b]).get w =
      (c.trigrams.get [a, b]).get w + if g = [a, b, w] then 1 else 0 := by
  rcases g with _ | ⟨x, _ | ⟨y, _ | ⟨z, _ | ⟨u, t⟩⟩⟩⟩
  · simp [NgramCounter.update]
  · simp [NgramCounter.update]
  · simp [NgramCounter.update]
  · by_cases hc : [x, y] = [a, b]
    · obtain ⟨hx, hy⟩ : x = a ∧ y = b := by simpa using hc
      subst hx
      subst hy
      by_cases hz : z = w <;>
        simp [NgramCounter.update, cfd_get_incr, fd_get_incr, hz]
    · have hne : ¬ [x, y, z] = [a, b, w] := by
        intro h
        apply hc
        simp only [List.cons.injEq] at h
        simp [h.1, h.2.1]
      simp [NgramCounter.update, cfd_get_incr, hc, hne]
  · simp [NgramCounter.update]

/-- One NgramCounter.update adds exactly one to the count of an ngram equal
to context ++ (word), at the order matching the context length. -/
theorem ngramCount_update (c : NgramCounter) (g : List Token) (n : Nat)
    (ctx : List Token) (w : Token) (hn : n = 1 ∨ n = 2 ∨ n = 3)
    (hctx : ctx.length = n - 1) :
    ngramCount (c.update g) n ctx w =
      ngramCount c n ctx w + if g = ctx ++ [w] then 1 else 0 := by
  rcases hn with hn | hn | hn
  · subst hn
    have he : ctx = [] := List.length_eq_zero.mp hctx
    subst he
    simpa [ngramCount] using unigrams_update_get c g w
  · subst hn
    obtain ⟨a, ha⟩ := List.length_eq_one.mp hctx
    subst ha
    simpa [ngramCount] using bigrams_update_get c g a w
  · subst hn
    obtain ⟨a, b, hab⟩ := List.length_eq_two.mp hctx
    subst hab
    simpa [ngramCount] using trigrams_update_get c g a b w

/-- Folding NgramCounter.update over a stream of ngrams adds the number of
occurrences of context ++ (word) in the stream. -/
theorem ngramCount_foldl (n : Nat) (ctx : List Token) (w : Token)
    (hn : n = 1 ∨ n = 2 ∨ n = 3) (hctx : ctx.length = n - 1) :
    ∀ (L : List (List Token)) (c : NgramCounter),
      ngramCount (L.foldl NgramCounter.update c) n ctx w =
        ngramCount c n ctx w + L.count (ctx ++ [w]) := by
  intro L
  induction L with
  | nil => intro c; simp
  | cons g L ih =>
    intro c
    rw [List.foldl_cons, ih (c.update g), ngramCount_update c g n ctx w hn hctx]
    have hc : List.count (ctx ++ [w]) (g :: L) =
        List.count (ctx ++ [w]) L + if g = ctx ++ [w] then 1 else 0 := by
      rw [List.count_cons]
      by_cases h : g = ctx ++ [w] <;> simp [h]
    rw [hc]
    omega

/-- Folding update sentence-stream by sentence-stream sums the per-stream
occurrence counts. -/
theorem ngramCount_foldl_nested (n : Nat) (ctx : List Token) (w : Token)
    (hn : n = 1 ∨ n = 2 ∨ n = 3) (hctx : ctx.length = n - 1) :
    ∀ (LL : List (List (List Token))) (c : NgramCounter),
      ngramCount (LL.foldl (fun c2 gs => gs.foldl NgramCounter.update c2) c) n ctx w =
        ngramCount c n ctx w + (LL.map (fun gs => gs.count (ctx ++ [w]))).sum := by
  intro LL
  induction LL with
  | nil => intro c; simp
  | cons gs LL ih =>
    intro c
    rw [List.foldl_cons, ih (gs.foldl NgramCounter.update c),
      ngramCount_foldl n ctx w hn hctx gs c]
    simp
    omega

/-- Every member of the width-n window stream has length n. -/
theorem length_of_mem_windows (n : Nat) :
    ∀ (l : List Token) (g : List Token), g ∈ windows n l → g.length = n := by
  intro l
  induction l with
  | nil => simp [windows]
  | cons x t ih =>
    intro g hg
    simp only [windows] at hg
    by_cases h : n ≤ (x :: t).length
    · rw [if_pos h] at hg
      rcases List.mem_cons.mp hg with hg | hg
      · subst hg
        rw [List.length_take]
        omega
      · exact ih g hg
    · rw [if_neg h] at hg
      exact absurd hg (List.not_mem_nil g)

/-- An ngram stream of a different order never contains context ++ (word). -/
theorem count_ngrams_ne_order (s : List Token) (m n : Nat) (ctx : List Token)
    (w : Token) (hne : m ≠ n) (hctx : ctx.length = n - 1) (h1 : 1 ≤ n) :
    (ngrams s m).count (ctx ++ [w]) = 0 := by
  apply List.count_eq_zero.mpr
  intro hmem
  simp only [ngrams] at hmem
  have hlen := length_of_mem_windows m _ _ hmem
  rw [List.length_append, List.length_singleton] at hlen
  omega

/-- C4: for every training corpus, every order n in 1..3 and every context of
length n-1, the count the built model stores equals the count described by
the spec: pad each sentence with n-1 START sentinels on the left and n-1 END
sentinels on the right, slide a width-n window, count the windows equal to
context ++ (word), and sum over the sentences — the padding width being
order-1, per order. -/
theorem fit_counts_match_spec (sentences : List (List Token)) (n : Nat)
    (ctx : List Token) (w : Token) (hn : n = 1 ∨ n = 2 ∨ n = 3)
    (hctx : ctx.length = n - 1) :
    ngramCount (fitCounter sentences) n ctx w = specNgramCount sentences n ctx w := by
  have h1 : 1 ≤ n := by rcases hn with h | h | h <;> omega
  have base : ngramCount ⟨[], [], []⟩ n ctx w = 0 := by
    rcases hn with h | h | h <;> subst h <;> rfl
  have hfold := ngramCount_foldl_nested n ctx w hn hctx
    ((sentences.map (fun s => ngrams s 3)) ++ (sentences.map (fun s => ngrams s 2))
      ++ (sentences.map (fun s => ngrams s 1))) ⟨[], [], []⟩
  rw [show fitCounter sentences =
      ((sentences.map (fun s => ngrams s 3)) ++ (sentences.map (fun s => ngrams s 2))
        ++ (sentences.map (fun s => ngrams s 1))).foldl
      (fun c2 gs => gs.foldl NgramCounter.update c2) ⟨[], [], []⟩ from rfl]
  rw [hfold, base, Nat.zero_add]
  rw [List.map_append, List.map_append, List.sum_append, List.sum_append]
  rw [List.map_map, List.map_map, List.map_map]
  have hzero : ∀ (m : Nat), m ≠ n →
      ((sentences.map ((fun gs => List.count (ctx ++ [w]) gs) ∘ fun s => ngrams s m))).sum = 0 := by
    intro m hm
    apply List.sum_eq_zero
    intro x hx
    obtain ⟨s, hs, hsx⟩ := List.mem_map.mp hx
    rw [← hsx]
    exact count_ngrams_ne_order s m n ctx w hm hctx h1
  have hsame : ∀ (m : Nat), m = n →
      ((sentences.map ((fun gs => List.count (ctx ++ [w]) gs) ∘ fun s => ngrams s m))).sum =
        specNgramCount sentences n ctx w := by
    intro m hm
    subst hm
    rfl
  rcases hn with h | h | h <;> subst h
  · rw [hzero 3 (by omega), hzero 2 (by omega), hsame 1 rfl]
    omega
  · rw [hzero 3 (by omega), hsame 2 rfl, hzero 1 (by omega)]
    omega
  · rw [hsame 3 rfl, hzero 2 (by omega), hzero 1 (by omega)]
    omega

/-- C4 witness: on corpusA at order 3 the stored count of (can, i) followed
by assist matches the spec count, namely 1. -/
theorem fit_counts_match_spec_witness :
    ngramCount (fitCounter corpusA) 3 [("can"), ("i")] ("assist") =
      specNgramCount corpusA 3 [("can"), ("i")] ("assist") ∧
    specNgramCount corpusA 3 [("can"), ("i")] ("assist") = 1 :=
  ⟨fit_counts_match_spec corpusA 3 [("can"), ("i")] ("assist")
    (by decide) (by decide), by decide⟩

/-! ### Claim C3 -/

/-- The keys of an incremented Counter: unchanged when the key is present,
the new key appended at the end otherwise. -/
theorem mem_keys_incr (d : FreqDist) (w x : Token) :
    x ∈ (d.incr w).map Prod.fst ↔ x ∈ d.map Prod.fst ∨ x = w := by
  induction d with
  | nil => simp [FreqDist.incr]
  | cons q rest ih =>
    obtain ⟨k, cnt⟩ := q
    by_cases hk : k = w
    · subst hk
      by_cases hx : x = k <;> simp [FreqDist.incr, hx]
    · simp [FreqDist.incr, hk, ih]
      tauto

/-- Incrementing a Counter keeps its keys free of duplicates. -/
theorem nodup_keys_incr (d : FreqDist) (w : Token)
    (h : (d.map Prod.fst).Nodup) : ((d.incr w).map Prod.fst).Nodup := by
  induction d with
  | nil => simp [FreqDist.incr]
  | cons q rest ih =>
    obtain ⟨k, cnt⟩ := q
    rw [List.map_cons, List.nodup_cons] at h
    by_cases hk : k = w
    · subst hk
      have he : FreqDist.incr ((k, cnt) :: rest) k = (k, cnt + 1) :: rest := by
        simp [FreqDist.incr]
      rw [he, List.map_cons, List.nodup_cons]
      exact ⟨h.1, h.2⟩
    · simp only [FreqDist.incr, hk, if_false, List.map_cons, List.nodup_cons]
      refine ⟨?_, ih h.2⟩
      intro hmem
      rcases (mem_keys_incr rest w k).mp hmem with hmem | hmem
      · exact h.1 hmem
      · exact hk hmem

/-- A conditional increment keeps every context distribution duplicate-free
in its keys. -/
theorem nodup_keys_cfd_incr (m : CFD) (ctx : List Token) (x : Token)
    (h : ∀ c2, ((m.get c2).map Prod.fst).Nodup) :
    ∀ c2, (((m.incr ctx x).get c2).map Prod.fst).Nodup := by
  intro c2
  rw [cfd_get_incr]
  by_cases hc : ctx = c2
  · rw [if_pos hc]
    exact nodup_keys_incr _ x (h c2)
  · rw [if_neg hc]
    exact h c2

/-- One update keeps every stored distribution duplicate-free in its keys. -/
theorem nodup_keys_update (c : NgramCounter) (g : List Token)
    (hb : ∀ ctx, ((c.bigrams.get ctx).map Prod.fst).Nodup)
    (ht : ∀ ctx, ((c.trigrams.get ctx).map Prod.fst).Nodup) :
    (∀ ctx, (((c.update g).bigrams.get ctx).map Prod.fst).Nodup) ∧
    (∀ ctx, (((c.update g).trigrams.get ctx).map Prod.fst).Nodup) := by
  rcases g with _ | ⟨x, _ | ⟨y, _ | ⟨z, _ | ⟨u, t⟩⟩⟩⟩
  · exact ⟨hb, ht⟩
  · exact ⟨hb, ht⟩
  · exact ⟨nodup_keys_cfd_incr c.bigrams [x] y hb, ht⟩
  · exact ⟨hb, nodup_keys_cfd_incr c.trigrams [x, y] z ht⟩
  · exact ⟨hb, ht⟩

/-- Folding updates keeps every stored distribution duplicate-free. -/
theorem nodup_keys_foldl :
    ∀ (L : List (List Token)) (c : NgramCounter),
      (∀ ctx, ((c.bigrams.get ctx).map Prod.fst).Nodup) →
      (∀ ctx, ((c.trigrams.get ctx).map Prod.fst).Nodup) →
      (∀ ctx, (((L.foldl NgramCounter.update c).bigrams.get ctx).map Prod.fst).Nodup) ∧
      (∀ ctx, (((L.foldl NgramCounter.update c).trigrams.get ctx).map Prod.fst).Nodup) := by
  intro L
  induction L with
  | nil => intro c hb ht; exact ⟨hb, ht⟩
  | cons g L ih =>
    intro c hb ht
    obtain ⟨hb2, ht2⟩ := nodup_keys_update c g hb ht
    exact ih (c.update g) hb2 ht2

/-- In a fitted model every stored distribution has duplicate-free keys. -/
theorem nodup_keys_fitCounter (sentences : List (List Token)) :
    (∀ ctx, (((fitCounter sentences).bigrams.get ctx).map Prod.fst).Nodup) ∧
    (∀ ctx, (((fitCounter sentences).trigrams.get ctx).map Prod.fst).Nodup) := by
  have main : ∀ (LL : List (List (List Token))) (c : NgramCounter),
      (∀ ctx, ((c.bigrams.get ctx).map Prod.fst).Nodup) →
      (∀ ctx, ((c.trigrams.get ctx).map Prod.fst).Nodup) →
      (∀ ctx, (((LL.foldl (fun c2 gs => gs.foldl NgramCounter.update c2) c).bigrams.get
          ctx).map Prod.fst).Nodup) ∧
      (∀ ctx, (((LL.foldl (fun c2 gs => gs.foldl NgramCounter.update c2) c).trigrams.get
          ctx).map Prod.fst).Nodup) := by
    intro LL
    induction LL with
    | nil => intro c hb ht; exact ⟨hb, ht⟩
    | cons gs LL ih =>
      intro c hb ht
      obtain ⟨hb2, ht2⟩ := nodup_keys_foldl gs c hb ht
      exact ih (gs.foldl NgramCounter.update c) hb2 ht2
  exact main _ ⟨[], [], []⟩ (fun ctx => by simp [CFD.get]) (fun ctx => by simp [CFD.get])

/-- In a duplicate-free Counter the lookup of a stored pair returns its
stored count. -/
theorem FreqDist.get_of_mem_nodup (d : FreqDist) (p : Token × Nat)
    (hp : p ∈ d) (hnd : (d.map Prod.fst).Nodup) : d.get p.1 = p.2 := by
  induction d with
  | nil => simp at hp
  | cons q rest ih =>
    obtain ⟨k, cnt⟩ := q
    rw [List.map_cons, List.nodup_cons] at hnd
    rcases List.mem_cons.mp hp with he | hm
    · rw [he]
      simp [FreqDist.get]
    · have hk : ¬ k = p.1 := by
        intro hkp
        apply hnd.1
        rw [hkp]
        exact List.mem_map.mpr ⟨p, hm, rfl⟩
      simp only [FreqDist.get, hk, if_false]
      exact ih hm hnd.2

/-- A pair that is a sublist of a duplicate-free list survives a take whose
result still holds the second element. -/
theorem pair_sublist_take {α : Type} {w1 w2 : α} :
    ∀ (l : List α) (n : Nat), l.Nodup → [w1, w2].Sublist l → w2 ∈ l.take n →
      [w1, w2].Sublist (l.take n) := by
  intro l
  induction l with
  | nil =>
    intro n hnd hsub hmem
    simp at hmem
  | cons x t ih =>
    intro n hnd hsub hmem
    cases n with
    | zero => simp at hmem
    | succ k =>
      rw [List.take_succ_cons] at hmem ⊢
      cases hsub with
      | cons _ h =>
        rcases List.mem_cons.mp hmem with he | hm
        · have hw2t : w2 ∈ t := h.subset (by simp)
          rw [← he] at hnd
          exact absurd hw2t (List.nodup_cons.mp hnd).1
        · exact (ih k (List.nodup_cons.mp hnd).2 h hm).cons x
      | cons₂ _ h =>
        apply List.Sublist.cons₂
        have hw2t : w2 ∈ t := h.subset (by simp)
        rcases List.mem_cons.mp hmem with he | hm
        · exact absurd (he ▸ hw2t) (List.nodup_cons.mp hnd).1
        · exact List.singleton_sublist.mpr hm

/-- Ranking and stable tie-break of get_next_word over any counter whose
queried distribution has duplicate-free keys. -/
theorem get_next_word_rank_stable_aux (c : NgramCounter) (ts : List Token)
    (top_n : Nat) (st : String) (h2 : 2 ≤ ts.length)
    (hnd : ((c.trigrams.get (lastTwo ts)).map Prod.fst).Nodup) :
    List.Pairwise
      (fun w1 w2 => (c.trigrams.get (lastTwo ts)).get w2 ≤
        (c.trigrams.get (lastTwo ts)).get w1)
      (get_next_word ⟨some c⟩ ts top_n st) ∧
    (∀ w1 w2 cnt,
      [(w1, cnt), (w2, cnt)].Sublist (c.trigrams.get (lastTwo ts)) →
      startswith w1 st = true → startswith w2 st = true →
      w2 ∈ get_next_word ⟨some c⟩ ts top_n st →
      [w1, w2].Sublist (get_next_word ⟨some c⟩ ts top_n st)) := by
  have hlt : ¬ ts.length < 1 := by omega
  have hseq : c.getSeq (lastTwo ts) = c.trigrams.get (lastTwo ts) := by
    obtain ⟨a, b, hab⟩ := lastTwo_pair ts h2
    rw [hab]
    rfl
  have hout : get_next_word ⟨some c⟩ ts top_n st =
      ((((List.insertionSort countGE (c.trigrams.get (lastTwo ts))).take
          c.unigrams.N).filter (fun p => startswith p.1 st)).map Prod.fst).take
        top_n := by
    simp only [get_next_word, FreqDist.most_common]
    rw [if_neg hlt, hseq]
  constructor
  · rw [hout]
    have hs0 : List.Pairwise countGE
        (List.insertionSort countGE (c.trigrams.get (lastTwo ts))) :=
      List.sorted_insertionSort countGE (c.trigrams.get (lastTwo ts))
    have hs1 := List.Pairwise.sublist
      (List.take_sublist c.unigrams.N _) hs0
    have hs2 : List.Pairwise countGE
        (((List.insertionSort countGE (c.trigrams.get (lastTwo ts))).take
          c.unigrams.N).filter (fun p => startswith p.1 st)) :=
      List.Pairwise.sublist (List.filter_sublist _) hs1
    have hs3 : List.Pairwise
        (fun p q : Token × Nat => (c.trigrams.get (lastTwo ts)).get q.1 ≤
          (c.trigrams.get (lastTwo ts)).get p.1)
        (((List.insertionSort countGE (c.trigrams.get (lastTwo ts))).take
          c.unigrams.N).filter (fun p => startswith p.1 st)) := by
      apply hs2.imp_of_mem
      intro p q hp hq hr
      have hp2 : p ∈ c.trigrams.get (lastTwo ts) :=
        (List.mem_insertionSort countGE).mp
          (List.mem_of_mem_take ((List.filter_sublist _).subset hp))
      have hq2 : q ∈ c.trigrams.get (lastTwo ts) :=
        (List.mem_insertionSort countGE).mp
          (List.mem_of_mem_take ((List.filter_sublist _).subset hq))
      rw [FreqDist.get_of_mem_nodup _ p hp2 hnd,
        FreqDist.get_of_mem_nodup _ q hq2 hnd]
      exact hr
    have hs4 : List.Pairwise
        (fun w1 w2 => (c.trigrams.get (lastTwo ts)).get w2 ≤
          (c.trigrams.get (lastTwo ts)).get w1)
        ((((List.insertionSort countGE (c.trigrams.get (lastTwo ts))).take
          c.unigrams.N).filter (fun p => startswith p.1 st)).map Prod.fst) :=
      List.pairwise_map.mpr hs3
    exact List.Pairwise.sublist (List.take_sublist top_n _) hs4
  · intro w1 w2 cnt hpair hsw1 hsw2 hw2
    rw [hout] at hw2 ⊢
    have hpd : (c.trigrams.get (lastTwo ts)).Nodup := List.Nodup.of_map Prod.fst hnd
    have hps : (List.insertionSort countGE (c.trigrams.get (lastTwo ts))).Nodup :=
      List.Perm.nodup (List.perm_insertionSort countGE _).symm hpd
    have h1 : [(w1, cnt), (w2, cnt)].Sublist
        (List.insertionSort countGE (c.trigrams.get (lastTwo ts))) :=
      List.pair_sublist_insertionSort (Nat.le_refl cnt) hpair
    obtain ⟨q, hqf, hqw⟩ := List.mem_map.mp (List.mem_of_mem_take hw2)
    have hq1 := (List.mem_filter.mp hqf).1
    have hq2 : q ∈ c.trigrams.get (lastTwo ts) :=
      (List.mem_insertionSort countGE).mp (List.mem_of_mem_take hq1)
    have hm2 : (w2, cnt) ∈ c.trigrams.get (lastTwo ts) :=
      hpair.subset (by simp)
    have hcnt : (c.trigrams.get (lastTwo ts)).get w2 = cnt :=
      FreqDist.get_of_mem_nodup _ (w2, cnt) hm2 hnd
    have hqeq : q = (w2, cnt) := by
      obtain ⟨q1, q2⟩ := q
      have hget := FreqDist.get_of_mem_nodup _ (q1, q2) hq2 hnd
      simp only at hqw
      subst hqw
      simp only at hget
      rw [hcnt] at hget
      rw [hget]
    rw [hqeq] at hq1
    have h2s := pair_sublist_take _ c.unigrams.N hps h1 hq1
    have h3s : [(w1, cnt), (w2, cnt)].Sublist
        (((List.insertionSort countGE (c.trigrams.get (lastTwo ts))).take
          c.unigrams.N).filter (fun p => startswith p.1 st)) := by
      have hf := List.Sublist.filter (fun p : Token × Nat => startswith p.1 st) h2s
      rwa [show List.filter (fun p : Token × Nat => startswith p.1 st)
          [(w1, cnt), (w2, cnt)] = [(w1, cnt), (w2, cnt)] from by
        simp [List.filter, hsw1, hsw2]] at hf
    have h4s : [w1, w2].Sublist
        ((((List.insertionSort countGE (c.trigrams.get (lastTwo ts))).take
          c.unigrams.N).filter (fun p => startswith p.1 st)).map Prod.fst) := by
      have hm := h3s.map Prod.fst
      simpa using hm
    have hnd4 : (((((List.insertionSort countGE (c.trigrams.get (lastTwo ts))).take
        c.unigrams.N).filter (fun p => startswith p.1 st)).map Prod.fst)).Nodup := by
      apply List.Nodup.sublist
      · exact List.Sublist.map Prod.fst
          ((List.filter_sublist _).trans (List.take_sublist _ _))
      · exact List.Perm.nodup ((List.perm_insertionSort countGE _).map Prod.fst).symm hnd
    exact pair_sublist_take _ top_n hnd4 h4s hw2

/-- C3: on every built model and two-or-more-token input, get_next_word ranks
the words of the trigram distribution at the last two tokens by count
descending, and words of equal count keep their first-seen order from
training (the insertion order of the distribution): a first-seen word of the
same count is returned whenever a later one is, and before it. -/
theorem get_next_word_rank_stable (sentences : List (List Token))
    (ts : List Token) (top_n : Nat) (st : String) (h2 : 2 ≤ ts.length) :
    List.Pairwise
      (fun w1 w2 => ((fitCounter sentences).trigrams.get (lastTwo ts)).get w2 ≤
        ((fitCounter sentences).trigrams.get (lastTwo ts)).get w1)
      (get_next_word ⟨some (fitCounter sentences)⟩ ts top_n st) ∧
    (∀ w1 w2 cnt,
      [(w1, cnt), (w2, cnt)].Sublist ((fitCounter sentences).trigrams.get (lastTwo ts)) →
      startswith w1 st = true → startswith w2 st = true →
      w2 ∈ get_next_word ⟨some (fitCounter sentences)⟩ ts top_n st →
      [w1, w2].Sublist (get_next_word ⟨some (fitCounter sentences)⟩ ts top_n st)) :=
  get_next_word_rank_stable_aux (fitCounter sentences) ts top_n st h2
    ((nodup_keys_fitCounter sentences).2 (lastTwo ts))

/-- C3 witness: on corpusA, assist and help follow (can, i) once each, assist
first; with topN 2 the tie is returned in first-seen order: assist before
help. -/
theorem get_next_word_rank_stable_witness :
    [("assist"), ("help")].Sublist
      (get_next_word ⟨some (fitCounter corpusA)⟩ [("how"), ("can"), ("i")] 2 ("")) :=
  (get_next_word_rank_stable corpusA [("how"), ("can"), ("i")] 2 ("")
    (by decide)).2 ("assist") ("help") 1 (by decide) (by decide) (by decide)
    (by decide)

/-! ### Claim C10 -/

/-- get_next_word only allocates: every live object is untouched and the
fresh-id counter never decreases. -/
theorem get_next_word_heap_frame (a : Autocompleter) (st : PyHeap)
    (arg top_n : Nat) (s : String) :
    (∀ i, i < st.next → (get_next_word_heap a st arg top_n s).1.heap i = st.heap i) ∧
    st.next ≤ (get_next_word_heap a st arg top_n s).1.next := by
  obtain ⟨mc⟩ := a
  cases mc with
  | none => exact ⟨fun i _ => rfl, Nat.le_refl _⟩
  | some c =>
    by_cases h : (st.heap arg).length < 1
    · have he : (get_next_word_heap ⟨some c⟩ st arg top_n s).1 = st := by
        simp only [get_next_word_heap]
        rw [if_pos h]
      rw [he]
      exact ⟨fun i _ => rfl, Nat.le_refl _⟩
    · have he : (get_next_word_heap ⟨some c⟩ st arg top_n s).1 = (heapCopy st arg).1 := by
        simp only [get_next_word_heap]
        rw [if_neg h]
      rw [he]
      refine ⟨?_, ?_⟩
      · intro i hi
        simp only [heapCopy]
        rw [if_neg (Nat.ne_of_lt hi)]
      · simp only [heapCopy]
        omega

/-- The growth loop writes only through the sentence reference and freshly
allocated ids: every other live object is untouched. -/
theorem growLoop_heap_frame (a : Autocompleter) :
    ∀ (k : Nat) (st : PyHeap) (sid : Nat),
      (∀ i, i < st.next → i ≠ sid → (growLoop_heap a k st sid).heap i = st.heap i) ∧
      st.next ≤ (growLoop_heap a k st sid).next := by
  intro k
  induction k with
  | zero => intro st sid; exact ⟨fun i _ _ => rfl, Nat.le_refl _⟩
  | succ k ih =>
    intro st sid
    obtain ⟨g1, g2⟩ := get_next_word_heap_frame a st sid 1 ""
    cases hr : (get_next_word_heap a st sid 1 "").2 with
    | nil =>
      have he : growLoop_heap a (k + 1) st sid = (get_next_word_heap a st sid 1 "").1 := by
        simp [growLoop_heap, hr]
      rw [he]
      exact ⟨fun i hi _ => g1 i hi, g2⟩
    | cons w rest =>
      by_cases hw : w = RIGHT_SENT_PAD
      · have he : growLoop_heap a (k + 1) st sid = (get_next_word_heap a st sid 1 "").1 := by
          simp [growLoop_heap, hr, hw]
        rw [he]
        exact ⟨fun i hi _ => g1 i hi, g2⟩
      · have he : growLoop_heap a (k + 1) st sid =
            growLoop_heap a k (heapAppend (get_next_word_heap a st sid 1 "").1 sid w) sid := by
          simp [growLoop_heap, hr, hw]
        rw [he]
        obtain ⟨i1, i2⟩ := ih (heapAppend (get_next_word_heap a st sid 1 "").1 sid w) sid
        refine ⟨?_, ?_⟩
        · intro i hi hne
          have hi2 : i < (heapAppend (get_next_word_heap a st sid 1 "").1 sid w).next := by
            simp only [heapAppend]
            exact Nat.lt_of_lt_of_le hi g2
          rw [i1 i hi2 hne]
          simp only [heapAppend]
          rw [if_neg hne]
          exact g1 i hi
        · refine Nat.le_trans ?_ i2
          simp only [heapAppend]
          exact g2

/-- C10: get_next_word and get_sentence leave the caller's token-list object
unchanged: both copy the list before any append, so a live argument reference
holds the same elements after the call as before. -/
theorem query_args_unchanged (a : Autocompleter) (st : PyHeap)
    (arg top_n m : Nat) (s : String) (h : arg < st.next) :
    (get_next_word_heap a st arg top_n s).1.heap arg = st.heap arg ∧
    (get_sentence_heap a st arg m).1.heap arg = st.heap arg := by
  refine ⟨(get_next_word_heap_frame a st arg top_n s).1 arg h, ?_⟩
  obtain ⟨mc⟩ := a
  cases mc with
  | none => rfl
  | some c =>
    by_cases hc : m ≤ (st.heap arg).length ∨ (st.heap arg).length = 0
    · have he : (get_sentence_heap ⟨some c⟩ st arg m).1 = st := by
        simp only [get_sentence_heap]
        rw [if_pos hc]
      rw [he]
    · have he : (get_sentence_heap ⟨some c⟩ st arg m).1 =
          growLoop_heap ⟨some c⟩ (m - (st.heap arg).length)
            (heapCopy st arg).1 (heapCopy st arg).2 := by
        simp only [get_sentence_heap]
        rw [if_neg hc]
      rw [he]
      obtain ⟨f1, f2⟩ := growLoop_heap_frame ⟨some c⟩ (m - (st.heap arg).length)
        (heapCopy st arg).1 (heapCopy st arg).2
      have harg2 : arg < (heapCopy st arg).1.next := by
        simp only [heapCopy]
        omega
      have harg3 : arg ≠ (heapCopy st arg).2 := by
        simp only [heapCopy]
        omega
      rw [f1 arg harg2 harg3]
      simp only [heapCopy]
      rw [if_neg (Nat.ne_of_lt h)]

/-- C10 witness: on a store with one live list, both queries leave the
argument object as it was. -/
theorem query_args_unchanged_witness :
    (get_next_word_heap acA heap0 0 1 ("")).1.heap 0 = heap0.heap 0 ∧
    (get_sentence_heap acA heap0 0 5).1.heap 0 = heap0.heap 0 :=
  query_args_unchanged acA heap0 0 1 5 ("") (by decide)
